import Mathlib

/-!
Verification of the weave IPAM core: a shallow embedding of the ring CRDT
(`ipam/ring`), the per-peer space tracker (`ipam/space`) and the allocator
actor (`ipam`), with theorems checking the natural-language specification
against the code.

Machine integers: `utils.Address` and `utils.Offset` are `uint32`; they are
embedded as `Nat` with an explicit `% 2 ^ 32` wherever the Go arithmetic can
wrap.  `int64` values (timestamps) are embedded as `Int`.
-/

set_option linter.unusedVariables false

namespace Weave

/-- Number of values of a 32-bit machine word. -/
def wordSize : ℕ := 2 ^ 32

/-- IPv4 address arithmetic `utils.Add(addr, i)`: `uint32` addition, which wraps. -/
def utilsAdd (addr i : ℕ) : ℕ := (addr + i) % wordSize

/-- Peer names (`router.PeerName`) are opaque identifiers; embedded as `Nat`. -/
abbrev PeerName := ℕ

/-! ## Space (`ipam/space/space.go`)

`Space` represents a range of addresses owned by this peer and the state for
managing free addresses.  The `intsets.Sparse` in-use set is embedded as a
`Finset ℕ` of offsets from `Start`. -/

structure Space where
  Start : ℕ
  Size : ℕ
  inuse : Finset ℕ
deriving DecidableEq

instance : Inhabited Space := ⟨⟨0, 0, ∅⟩⟩

/-- The invariant `space.assertInvariants` checks: every in-use offset is
below `Size` (in the source: `inuse.Max() < Size`). -/
def Space.inv (space : Space) : Prop := ∀ o ∈ space.inuse, o < space.Size

/-- `Space.contains`: `addr >= space.Start && Offset(addr-space.Start) < space.Size`. -/
def Space.contains (space : Space) (addr : ℕ) : Bool :=
  decide (space.Start ≤ addr) && decide (addr - space.Start < space.Size)

/-- `Space.Claim` marks an address as allocated on behalf of some container.
The returned pair mirrors Go's `(bool, error)` result; the source never
returns a non-nil error here. -/
def Space.Claim (space : Space) (addr : ℕ) : (Bool × Option String) × Space :=
  if !space.contains addr then ((false, none), space)
  else ((true, none), { space with inuse := insert (addr - space.Start) space.inuse })

/-- The scan loop inside `Space.Allocate`: starting from offset `off`, find the
lowest offset below `size` whose bit is unset; `none` when the scan runs past
`size` (out of space). -/
def scanFree (inuse : Finset ℕ) (size off : ℕ) : Option ℕ :=
  if off < size then
    if off ∈ inuse then scanFree inuse size (off + 1) else some off
  else none
termination_by size - off

/-- `Space.Allocate` returns the lowest available IP within this space and
marks it used; `(false, 0)` when the space is full. -/
def Space.Allocate (space : Space) : (Bool × ℕ) × Space :=
  match scanFree space.inuse space.Size 0 with
  | none => ((false, 0), space)
  | some offset =>
      ((true, utilsAdd space.Start offset),
       { space with inuse := insert offset space.inuse })

/-- `Space.Free` records an in-range, in-use address as available again. -/
def Space.Free (space : Space) (addr : ℕ) : Option String × Space :=
  if !space.contains addr then (some "Free out of range", space)
  else
    let offset := addr - space.Start
    if offset ∉ space.inuse then (some "Freeing address that is not in use", space)
    else (none, { space with inuse := space.inuse.erase offset })

/-- Largest element of the in-use set (`intsets.Sparse.Max`); the source only
calls it on non-empty sets. -/
def sparseMax (inuse : Finset ℕ) : ℕ := inuse.max.unbot' 0

/-- Inner loop of `BiggestFreeChunk`: the length of the run of free offsets
starting at `i` and stopping at the first in-use offset or at `mx`. -/
def runLen (inuse : Finset ℕ) (mx i : ℕ) : ℕ :=
  if i < mx ∧ i ∉ inuse then runLen inuse mx (i + 1) + 1 else 0
termination_by mx - i
decreasing_by omega

/-- Outer scan of `BiggestFreeChunk` over `[0, mx)`: each iteration measures the
free run starting at `i`, keeps it if it beats the current chunk, and resumes
after the run (the source advances `i` past the run, then past the in-use
offset that ended it). -/
def bfcScan (inuse : Finset ℕ) (mx i chunkStart chunkSize : ℕ) : ℕ × ℕ :=
  if i < mx then
    let potentialSize := runLen inuse mx i
    if potentialSize > chunkSize then bfcScan inuse mx (i + potentialSize + 1) i potentialSize
    else bfcScan inuse mx (i + potentialSize + 1) chunkStart chunkSize
  else (chunkStart, chunkSize)
termination_by mx - i
decreasing_by
  · omega
  · omega

/-- `Space.BiggestFreeChunk` scans the in-use list and returns the start and
length of the largest free range it can find; length zero means no free
space.  The first candidate is the unallocated run after `inuse.Max()`. -/
def Space.BiggestFreeChunk (space : Space) : ℕ × ℕ :=
  if space.inuse = ∅ then (space.Start, space.Size)
  else
    let mx := sparseMax space.inuse
    let chunkStart := mx + 1
    let chunkSize := space.Size - chunkStart
    let res := bfcScan space.inuse mx 0 chunkStart chunkSize
    if res.2 = 0 then (0, 0)
    else (utilsAdd space.Start res.1, res.2)

/-- `Space.Grow` increases the size of this space (the source asserts it never
shrinks). -/
def Space.Grow (space : Space) (size : ℕ) : Space := { space with Size := size }

/-- `Space.NumFreeAddresses` is the total number of free addresses:
`Size - inuse.Len()`. -/
def Space.NumFreeAddresses (space : Space) : ℕ := space.Size - space.inuse.card

/-- `Space.Split` divides the space at `addr` into `[Start, addr)` and
`[addr, Start+Size)`, distributing the in-use offsets. -/
def Space.Split (space : Space) (addr : ℕ) : Space × Space :=
  let breakpoint := addr - space.Start
  (⟨space.Start, breakpoint, space.inuse.filter (fun i => i < breakpoint)⟩,
   ⟨addr, space.Size - breakpoint,
    (space.inuse.filter (fun i => breakpoint ≤ i)).image (fun i => i - breakpoint)⟩)

/-! ## Set (`ipam/space/space_set.go`)

A `Set` is the sorted-by-start collection of `Space`s owned by this peer. -/

structure Set where
  spaces : List Space
deriving DecidableEq

/-- Sorted insertion used by `Set.AddSpace` (the source finds the first space
with `Start >= newspace.Start` and inserts there). -/
def insertSpace : List Space → Space → List Space
  | [], newspace => [newspace]
  | sp :: rest, newspace =>
    if newspace.Start ≤ sp.Start then newspace :: sp :: rest
    else sp :: insertSpace rest newspace

/-- `Set.AddSpace` adds a new space to this set, keeping it sorted. -/
def Set.AddSpace (s : Set) (newspace : Space) : Set := ⟨insertSpace s.spaces newspace⟩

/-- `Set.NumFreeAddresses` sums the free addresses over all spaces. -/
def Set.NumFreeAddresses (s : Set) : ℕ :=
  (s.spaces.map Space.NumFreeAddresses).sum

/-- The loop in `Set.GiveUpSpace` that finds the biggest free chunk amongst all
spaces.  The accumulator is `(bestStart, bestSize, spaceIndex)`; a later space
whose chunk is at least as big replaces the current best. -/
def findBest : List Space → ℕ → ℕ × ℕ × ℕ → ℕ × ℕ × ℕ
  | [], _, best => best
  | space :: rest, j, best =>
    let c := space.BiggestFreeChunk
    if c.2 < best.2.1 then findBest rest (j + 1) best
    else findBest rest (j + 1) (c.1, c.2, j)

/-- `Set.GiveUpSpace` returns a large reasonably-sized chunk of free space:
at most half the free addresses we own (minimum 1), right-aligned inside the
biggest free chunk, splitting the chosen space around the donation.  The
result mirrors Go's `(Address, Offset, bool)` plus the mutated set. -/
def Set.GiveUpSpace (s : Set) : (ℕ × ℕ × Bool) × Set :=
  let totalFreeAddresses := s.NumFreeAddresses
  let maxDonation := if totalFreeAddresses / 2 < 1 then 1 else totalFreeAddresses / 2
  let best := findBest s.spaces 0 (0, 0, 0)
  let bestSize0 := best.2.1
  let spaceIndex := best.2.2
  if bestSize0 = 0 then ((0, 0, false), s)
  else
    let bestStart :=
      if bestSize0 > maxDonation then utilsAdd best.1 (bestSize0 - maxDonation) else best.1
    let bestSize := if bestSize0 > maxDonation then maxDonation else bestSize0
    let bestSpace := s.spaces.getD spaceIndex default
    let splits := bestSpace.Split bestStart
    let split1 := splits.1
    let afterEnd :=
      if splits.2.Size ≠ bestSize then
        let sp := splits.2.Split (utilsAdd bestStart bestSize)
        (sp.1, some sp.2)
      else (splits.2, none)
    let removed := s.spaces.eraseIdx spaceIndex
    let withSplit1 := if split1.Size > 0 then insertSpace removed split1 else removed
    let newSpaces :=
      match afterEnd.2 with
      | some split3 => insertSpace withSplit1 split3
      | none => withSplit1
    ((bestStart, bestSize, true), ⟨newSpaces⟩)

/-- `Set.Allocate` tries each contained space in order and returns the first
success. -/
def setAllocateLoop : List Space → (Bool × ℕ) × List Space
  | [] => ((false, 0), [])
  | space :: rest =>
    let r := space.Allocate
    if r.1.1 then (r.1, r.2 :: rest)
    else
      let rr := setAllocateLoop rest
      (rr.1, r.2 :: rr.2)

/-- See `setAllocateLoop`. -/
def Set.Allocate (s : Set) : (Bool × ℕ) × Set :=
  let r := setAllocateLoop s.spaces
  (r.1, ⟨r.2⟩)

/-- `Set.Free` locates the space containing `addr` and delegates to it. -/
def setFreeLoop : List Space → ℕ → Option String × List Space
  | [], _ => (some "IP address not in range", [])
  | space :: rest, addr =>
    if space.contains addr then
      let r := space.Free addr
      (r.1, r.2 :: rest)
    else
      let rr := setFreeLoop rest addr
      (rr.1, space :: rr.2)

/-- See `setFreeLoop`. -/
def Set.Free (s : Set) (addr : ℕ) : Option String × Set :=
  let r := setFreeLoop s.spaces addr
  (r.1, ⟨r.2⟩)

/-! ## Ring entries (`ipam/ring/entry.go`)

`entry` is a token placed at the start of a range: the owning peer, a
tombstone timestamp (`int64`, 0 means live), a version and the advertised
free count. -/

structure entry where
  Token : ℕ
  Peer : PeerName
  Tombstone : ℤ
  Version : ℕ
  Free : ℕ
deriving DecidableEq, Repr

instance : Inhabited entry := ⟨⟨0, 0, 0, 0, 0⟩⟩

/-- `entry.Equal` compares `Token`, `Peer`, `Tombstone` and `Version`; note
that the source does not compare `Free`. -/
def entry.Equal (e1 e2 : entry) : Bool :=
  e1.Token == e2.Token && e1.Peer == e2.Peer &&
    e1.Tombstone == e2.Tombstone && e1.Version == e2.Version

/-- `entries.entry(i)` indexes with wrap-around; the source reduces `i`
modulo the length (only non-negative indices reach this embedding). -/
def entriesEntry (es : List entry) (i : ℕ) : entry :=
  es.getD (i % es.length) default

/-- `entries.entry(-1)`: the last entry. -/
def entriesLast (es : List entry) : entry :=
  es.getLast?.getD default

/-- `entries.insert` inserts before the first entry whose token is at least
`e.Token` (the source asserts the token is not already present). -/
def entriesInsert : List entry → entry → List entry
  | [], e => [e]
  | x :: rest, e =>
    if e.Token ≤ x.Token then e :: x :: rest else x :: entriesInsert rest e

/-- `entries.get` finds the entry at exactly this token, via the same
leftmost-token-at-least search as the source. -/
def entriesGet (es : List entry) (token : ℕ) : Option entry :=
  match es.get? (es.findIdx (fun e => token ≤ e.Token)) with
  | some e => if e.Token = token then some e else none
  | none => none

/-- Modelled from the spec: the `entry.update` helper used by the newer ring
code is not among the provided sources (only its callers are).  Per the spec
an in-place update installs the new owner and free count and increments the
version. -/
def entry.update (e : entry) (peername : PeerName) (free : ℕ) : entry :=
  { e with Peer := peername, Free := free, Version := e.Version + 1 }

/-- In-place `e.update` of the unique entry carrying `token`. -/
def entriesUpdateAt (es : List entry) (token : ℕ) (peername : PeerName) (free : ℕ) :
    List entry :=
  es.map fun e => if e.Token = token then e.update peername free else e

/-! ## Ring (`ipam/ring/ring.go`)

The ring CRDT: a sorted token sequence over the subnet `[Start, End)`, plus
the owner peer name and the wall-clock timestamp attached to gossip. -/

/-- Errors returned by ring merge and its callers. -/
inductive RingError where
  | notSorted
  | tokenRepeated
  | tokenOutOfRange
  | differentSubnets
  | newerVersion
  | invalidEntry
  | entryInMyRange
  | noFreeSpace
  | tooMuchFreeSpace
  | invalidTimeout
  | notFound
  | clockSkew
deriving DecidableEq, Repr

structure Ring where
  Now : ℤ
  Start : ℕ
  End : ℕ
  Peername : PeerName
  Entries : List entry
deriving DecidableEq, Repr

/-- `Ring.distance` between two tokens, dealing with ranges which cross the
origin. -/
def Ring.distance (r : Ring) (start stop : ℕ) : ℕ :=
  if stop > start then stop - start
  else (r.End - start) + (stop - r.Start)

/-- `sort.IsSorted` over entries: adjacent tokens are non-decreasing. -/
def tokensSorted : List entry → Bool
  | [] => true
  | [_] => true
  | a :: b :: rest => decide (a.Token ≤ b.Token) && tokensSorted (b :: rest)

/-- Adjacent-duplicate token check of `checkInvariants`. -/
def tokensRepeated : List entry → Bool
  | a :: b :: rest => decide (a.Token = b.Token) || tokensRepeated (b :: rest)
  | _ => false

/-- Free-count check of `checkInvariants`: each entry advertises no more free
addresses than the distance to the next token. -/
def freeTooBig (r : Ring) : Bool :=
  (List.range r.Entries.length).any fun i =>
    let e := entriesEntry r.Entries i
    let next := entriesEntry r.Entries (i + 1)
    decide (e.Free > r.distance e.Token next.Token)

/-- `Ring.checkInvariants`: sorted, no repeated token, tokens inside
`[Start, End)`, and free counts within range sizes. -/
def Ring.checkInvariants (r : Ring) : Option RingError :=
  if !tokensSorted r.Entries then some .notSorted
  else if tokensRepeated r.Entries then some .tokenRepeated
  else if r.Entries.length = 0 then none
  else if (entriesEntry r.Entries 0).Token < r.Start then some .tokenOutOfRange
  else if (entriesLast r.Entries).Token ≥ r.End then some .tokenOutOfRange
  else if freeTooBig r then some .tooMuchFreeSpace
  else none

/-- The check guarding insertion of a remote-only token during merge: the
entry preceding it in the result is ours while the inserted entry is not
(a range owned by us would be split). -/
def prevOwnerBlocks (peername : PeerName) (previousOwner : Option PeerName)
    (theirs : entry) : Bool :=
  match previousOwner with
  | some p => decide (p = peername) && decide (theirs.Peer ≠ peername)
  | none => false

/-- The lockstep walk of `Ring.merge` over both sorted entry lists.
`previousOwner` is the owner of the last entry added to the result, reset to
`none` whenever a gossiped entry was consumed. -/
def mergeLoop (peername : PeerName) :
    List entry → List entry → Option PeerName → Except RingError (List entry)
  | ms, [], _ => .ok ms
  | [], t :: ts, previousOwner =>
    if prevOwnerBlocks peername previousOwner t then .error .entryInMyRange
    else (mergeLoop peername [] ts none).map (t :: ·)
  | m :: ms, t :: ts, previousOwner =>
    if m.Token < t.Token then
      (mergeLoop peername ms (t :: ts) (some m.Peer)).map (m :: ·)
    else if m.Token > t.Token then
      if prevOwnerBlocks peername previousOwner t then .error .entryInMyRange
      else (mergeLoop peername (m :: ms) ts none).map (t :: ·)
    else
      if m.Version ≥ t.Version then
        if m.Version = t.Version ∧ m.Equal t = false then .error .invalidEntry
        else (mergeLoop peername ms ts (some m.Peer)).map (m :: ·)
      else
        if m.Peer = peername then .error .newerVersion
        else (mergeLoop peername ms ts none).map (t :: ·)
termination_by ms ts => ms.length + ts.length

/-- `Ring.merge` merges a gossiped ring into this ring: validate the gossip's
invariants, require equal subnets, then walk both entry lists.  The pair
mirrors the in-place mutation: on error the local ring is unchanged. -/
def Ring.merge (r : Ring) (gossip : Ring) : Ring × Option RingError :=
  match gossip.checkInvariants with
  | some e => (r, some e)
  | none =>
    if r.Start ≠ gossip.Start ∨ r.End ≠ gossip.End then (r, some .differentSubnets)
    else
      match mergeLoop r.Peername r.Entries gossip.Entries none with
      | .error e => (r, some e)
      | .ok result => ({ r with Entries := result }, none)

/-- `maxClockSkew`: the source sets `const maxClockSkew int64 = int64(time.Hour)`,
i.e. the number of nanoseconds in an hour, although the values it is compared
against are Unix-second timestamps. -/
def maxClockSkew : ℤ := 3600000000000

/-- `Ring.UpdateRing` rejects gossip whose timestamp is too far from the local
clock (`now()`, passed here as `localNow`), then merges. -/
def Ring.UpdateRing (r : Ring) (localNow : ℤ) (gossipedRing : Ring) :
    Ring × Option RingError :=
  let skew := localNow - gossipedRing.Now
  if -maxClockSkew > skew ∨ skew > maxClockSkew then (r, some .clockSkew)
  else r.merge gossipedRing

/-- The loop of `Ring.ClaimForPeers`: hand each peer its share of the ring,
decrementing the share once index `remainder` is reached and stopping if the
share reaches zero. -/
def claimLoop (remainder : ℕ) :
    List PeerName → ℕ → ℕ → ℕ → List entry → List entry
  | [], _, _, _, es => es
  | peer :: rest, i, share, pos, es =>
    let share1 := if i = remainder then share - 1 else share
    if i = remainder ∧ share1 = 0 then es
    else
      let es1 :=
        match entriesGet es pos with
        | some _ => entriesUpdateAt es pos peer share1
        | none =>
          entriesInsert es { Token := pos, Peer := peer, Tombstone := 0,
                             Version := 0, Free := share1 }
      claimLoop remainder rest (i + 1) share1 (utilsAdd pos share1) es1

/-- `Ring.ClaimForPeers` claims the entire (empty) ring for the given peers:
shares of `totalSize / n + 1`, decremented after the first
`totalSize % n` peers. -/
def Ring.ClaimForPeers (r : Ring) (peers : List PeerName) : Ring :=
  let totalSize := r.distance r.Start r.End
  let share := totalSize / peers.length + 1
  let remainder := totalSize % peers.length
  { r with Entries := claimLoop remainder peers 0 share r.Start r.Entries }

/-! ### Specification-side description of `ClaimForPeers`

The following definitions state, in the claim's own terms, what the division
of an empty ring of usable size `S` among `N` peers should look like; the C6
theorem proves the embedded `Ring.ClaimForPeers` equal to it. -/

/-- Share of the `i`-th peer per the claim: the first `S mod N` peers own
`S / N + 1` addresses, the rest own `S / N`. -/
def shareOf (S N i : ℕ) : ℕ := if i < S % N then S / N + 1 else S / N

/-- Token position of the `i`-th peer: `Start` plus the shares of all earlier
peers (consecutive ranges in list order). -/
def tokAt (start S N : ℕ) : ℕ → ℕ
  | 0 => start
  | i + 1 => tokAt start S N i + shareOf S N i

/-- How many peers receive a token: all `N` when the base share is positive,
otherwise only the first `S mod N` peers (a peer whose share is zero receives
no token). -/
def numClaimed (S N : ℕ) : ℕ := if S / N = 0 then S % N else N

/-- The entry list the claim describes: one token per claimed peer, at
consecutive positions, with version 0 and the share as free count. -/
def expectedClaim (start S N : ℕ) (peers : List PeerName) : List entry :=
  (List.range (numClaimed S N)).map fun i =>
    { Token := tokAt start S N i, Peer := peers.getD i 0, Tombstone := 0,
      Version := 0, Free := shareOf S N i }

/-! ### ReportFree (`ipam/ring/ring.go`)

The free-space map is embedded as an association list, making the iteration
order of the Go `range` over the map explicit. -/

/-- Map lookup `freespace[k]`. -/
def lookupFS (fs : List (ℕ × ℕ)) (k : ℕ) : Option ℕ :=
  (fs.find? (fun p => p.1 == k)).map (·.2)

/-- Map store `freespace[k] = v` (for a key already present). -/
def setFS (fs : List (ℕ × ℕ)) (k v : ℕ) : List (ℕ × ℕ) :=
  fs.map fun p => if p.1 = k then (k, v) else p

/-- Map deletion `delete(freespace, k)`. -/
def eraseFS (fs : List (ℕ × ℕ)) (k : ℕ) : List (ℕ × ℕ) :=
  fs.filter (fun p => p.1 != k)

/-- The per-entry loop of `Ring.ReportFree`.  For each mapped token, find its
entry with the leftmost-token-at-least search of `sort.Search`; the source
asserts that the token is present, that it is owned by self, and that the
reported count is at most the size of the token's range — `none` models those
panics.  When the stored free count already equals the reported one the
source executes `return`, abandoning the rest of the map; otherwise it stores
the count and bumps the version. -/
def reportFreeLoop (r : Ring) : List (ℕ × ℕ) → List entry → Option (List entry)
  | [], es => some es
  | (start, free) :: rest, es =>
    let i := es.findIdx (fun e => start ≤ e.Token)
    if i < es.length ∧ (entriesEntry es i).Token = start ∧
        (entriesEntry es i).Peer = r.Peername then
      let e := entriesEntry es i
      let next := entriesEntry es (i + 1)
      if free ≤ r.distance e.Token next.Token then
        if e.Free = free then some es
        else reportFreeLoop r rest
          (es.set i { e with Free := free, Version := e.Version + 1 })
      else none
    else none

/-- `Ring.ReportFree` records the allocator's free counts on the entries whose
tokens appear in the map.  A count reported against `Start` when `Start` is
not itself a token is folded into the wrap-around range owned by the last
token (the source asserts that the last token is mapped).  `none` models the
source's panics: `assertInvariants` at entry and (deferred) at exit, the
`Assert(!r.Empty())`, the fix-up's `Assert(found)`, and the per-entry asserts
inside the loop. -/
def Ring.ReportFree (r : Ring) (freespace : List (ℕ × ℕ)) : Option Ring :=
  if r.checkInvariants ≠ none then none
  else if r.Entries.length = 0 then none
  else
    let es := r.Entries
    let fsStep : Option (List (ℕ × ℕ)) :=
      match lookupFS freespace r.Start with
      | some free =>
        if (entriesEntry es 0).Token ≠ r.Start then
          let lastToken := (entriesLast es).Token
          match lookupFS freespace lastToken with
          | some prevFree =>
            some (eraseFS (setFS freespace lastToken (prevFree + free)) r.Start)
          | none => none
        else some freespace
      | none => some freespace
    match fsStep with
    | none => none
    | some fs =>
      match reportFreeLoop r fs es with
      | none => none
      | some es1 =>
        let r1 : Ring := { r with Entries := es1 }
        if r1.checkInvariants = none then some r1 else none

/-! ## Allocator (`ipam/allocator.go`)

The single-threaded actor state relevant to allocation: the owned table
(container id to address), the space set, and the two pending-operation
queues.  Operations are embedded as records carrying the container id and a
distinguishing handle (Go compares them by interface identity). -/

structure operation where
  ident : String
  handle : ℕ
deriving DecidableEq, Repr

/-- `operation.ForContainer`: does this operation pertain to the container? -/
def operation.ForContainer (op : operation) (ident : String) : Bool :=
  op.ident == ident

structure Allocator where
  owned : List (String × ℕ)
  spaceSet : Set
  pendingAllocates : List operation
  pendingClaims : List operation
deriving DecidableEq

/-- Map lookup `alloc.owned[ident]`. -/
def lookupOwned (owned : List (String × ℕ)) (ident : String) : Option ℕ :=
  (owned.find? (fun p => p.1 == ident)).map (·.2)

/-- `Allocator.addOwned`: `alloc.owned[ident] = addr`. -/
def addOwned (owned : List (String × ℕ)) (ident : String) (addr : ℕ) :
    List (String × ℕ) :=
  owned.filter (fun p => p.1 != ident) ++ [(ident, addr)]

/-- Map deletion `delete(alloc.owned, ident)`. -/
def deleteOwned (owned : List (String × ℕ)) (ident : String) : List (String × ℕ) :=
  owned.filter (fun p => p.1 != ident)

/-- `Allocator.cancelOp` removes an operation from a pending queue and cancels
it, returning the new queue and the cancelled operation (if any).  In the
source the `range` loop variable `op` shadows the `op` parameter, so the
guard compares the loop variable with itself; the first queued operation
therefore always matches, independently of `opArg`. -/
def cancelOp (opArg : operation) (ops : List operation) :
    List operation × Option operation :=
  match ops with
  | [] => ([], none)
  | op :: rest =>
    if op == op then (rest, some op)
    else
      let r := cancelOp opArg rest
      (op :: r.1, r.2)

/-- `Allocator.cancelOpsFor` cancels and removes every pending operation for
`ident` and reports whether any was found.  The source removes elements while
ranging over the same slice; this rendering coincides with it whenever at
most one queued operation matches `ident`, which is what the allocator
maintains (at most one pending operation per container). -/
def cancelOpsFor (ops : List operation) (ident : String) : List operation × Bool :=
  (ops.filter (fun op => !op.ForContainer ident),
   ops.any (fun op => op.ForContainer ident))

/-- The `allocate` pending operation: the container id and a snapshot of the
cancellation query `hasBeenCancelled()`. -/
structure allocate where
  ident : String
  hasBeenCancelled : Bool

/-- Result of `allocate.Try`: whether the operation completed, the
`allocateResult` sent on the result channel (if any), and the allocator
state.  The out-of-space path additionally asks a donor peer for space,
which is an outgoing message and does not change the allocator state. -/
structure TryResult where
  done : Bool
  sent : Option (Bool × ℕ)
  alloc : Allocator
deriving DecidableEq

/-- `allocate.Try`: cancelled operations report a cancel result; a previously
stored address for this container is returned as-is; otherwise allocate from
the space set and record ownership; if out of space, stay pending. -/
def allocate.Try (g : allocate) (alloc : Allocator) : TryResult :=
  if g.hasBeenCancelled then { done := true, sent := some (false, 0), alloc := alloc }
  else
    match lookupOwned alloc.owned g.ident with
    | some addr => { done := true, sent := some (true, addr), alloc := alloc }
    | none =>
      let r := alloc.spaceSet.Allocate
      if r.1.1 then
        let alloc1 := { alloc with owned := addOwned alloc.owned g.ident r.1.2,
                                   spaceSet := r.2 }
        { done := true, sent := some (true, r.1.2), alloc := alloc1 }
      else
        { done := false, sent := none, alloc := { alloc with spaceSet := r.2 } }

/-- `Allocator.free` releases the address owned for `ident`: free it in the
space set if present, delete the owned entry, cancel any pending operations
for the container, and report an error when nothing was found. -/
def Allocator.free (alloc : Allocator) (ident : String) : Allocator × Option String :=
  let found0 := (lookupOwned alloc.owned ident).isSome
  let spaceSet1 :=
    match lookupOwned alloc.owned ident with
    | some addr => (alloc.spaceSet.Free addr).2
    | none => alloc.spaceSet
  let ra := cancelOpsFor alloc.pendingAllocates ident
  let rc := cancelOpsFor alloc.pendingClaims ident
  let found := rc.2 || (ra.2 || found0)
  let alloc1 : Allocator :=
    { owned := deleteOwned alloc.owned ident, spaceSet := spaceSet1,
      pendingAllocates := ra.1, pendingClaims := rc.1 }
  if !found then (alloc1, some ("No addresses for " ++ ident))
  else (alloc1, none)

/-! ## Concrete instances used by witnesses and counterexamples -/

/-- A ring whose single live entry advertises 5 free addresses. -/
def ringFree5 : Ring :=
  { Now := 0, Start := 10, End := 20, Peername := 2,
    Entries := [{ Token := 12, Peer := 1, Tombstone := 0, Version := 3, Free := 5 }] }

/-- The same ring as `ringFree5` held by peer 3, advertising 6 free addresses
with the same version. -/
def ringFree6 : Ring :=
  { Now := 0, Start := 10, End := 20, Peername := 3,
    Entries := [{ Token := 12, Peer := 1, Tombstone := 0, Version := 3, Free := 6 }] }

/-- A ring with two self-owned tokens used to exercise `ReportFree`.  Both
ranges have size 5 and both entries advertise exactly 5 free addresses, so
the ring satisfies `checkInvariants`. -/
def ringTwoTokens : Ring :=
  { Now := 0, Start := 10, End := 20, Peername := 1,
    Entries := [{ Token := 10, Peer := 1, Tombstone := 0, Version := 0, Free := 5 },
                { Token := 15, Peer := 1, Tombstone := 0, Version := 0, Free := 5 }] }

/-- An empty local ring over `[10, 20)`. -/
def ringEmptyLocal : Ring :=
  { Now := 0, Start := 10, End := 20, Peername := 1, Entries := [] }

/-- A valid gossiped ring over `[10, 20)` carrying timestamp 0. -/
def ringGossiped : Ring :=
  { Now := 0, Start := 10, End := 20, Peername := 2,
    Entries := [{ Token := 11, Peer := 2, Tombstone := 0, Version := 0, Free := 9 }] }

/-! # Theorems -/

/-! ## Helper lemmas about `entry.Equal` -/

theorem entry_Equal_iff (a b : entry) :
    entry.Equal a b = true ↔
      a.Token = b.Token ∧ a.Peer = b.Peer ∧ a.Tombstone = b.Tombstone ∧
        a.Version = b.Version := by
  simp [entry.Equal, Bool.and_eq_true, beq_iff_eq, and_assoc]

theorem entry_Equal_refl (a : entry) : entry.Equal a a = true := by
  simp [entry_Equal_iff]

theorem entry_Equal_symm {a b : entry} (h : entry.Equal a b = true) :
    entry.Equal b a = true := by
  rw [entry_Equal_iff] at h ⊢
  obtain ⟨h1, h2, h3, h4⟩ := h
  exact ⟨h1.symm, h2.symm, h3.symm, h4.symm⟩

/-! ## C9: `cancelOp` always cancels the head of the queue -/

/-- C9: for every non-empty pending queue and every operation argument,
`cancelOp` cancels and removes exactly the first operation in the queue,
regardless of which operation was passed in; the passed operation remains
queued unless it was at the head. -/
theorem cancelOp_cancels_first (opArg x : operation) (rest : List operation) :
    cancelOp opArg (x :: rest) = (rest, some x) ∧
    (opArg ∈ rest → opArg ∈ (cancelOp opArg (x :: rest)).1) := by
  constructor
  · simp [cancelOp]
  · intro h
    simpa [cancelOp] using h

/-- Witness for C9 at a concrete queue: the head `a` is cancelled even though
the argument is the second operation `x`, and `x` stays queued. -/
theorem cancelOp_cancels_first_witness :
    cancelOp ⟨"x", 7⟩ [⟨"a", 1⟩, ⟨"x", 7⟩] = ([⟨"x", 7⟩], some ⟨"a", 1⟩) ∧
    (⟨"x", 7⟩ : operation) ∈ (cancelOp ⟨"x", 7⟩ [⟨"a", 1⟩, ⟨"x", 7⟩]).1 :=
  ⟨(cancelOp_cancels_first ⟨"x", 7⟩ ⟨"a", 1⟩ [⟨"x", 7⟩]).1,
   (cancelOp_cancels_first ⟨"x", 7⟩ ⟨"a", 1⟩ [⟨"x", 7⟩]).2 (by decide)⟩

/-! ## C10: `Space.Claim` is an idempotent in-range marker -/

/-- C10: for an address inside the space, `Claim` returns `(true, nil)` and
marks the offset in use, even when it was already in use (in which case the
space is unchanged, so a second claim is idempotent); for an address outside
the space it returns `(false, nil)` and changes nothing. -/
theorem Space_Claim_spec (space : Space) (addr : ℕ) :
    (space.contains addr = true →
      space.Claim addr =
        ((true, none),
         { space with inuse := insert (addr - space.Start) space.inuse })) ∧
    (space.contains addr = true → (addr - space.Start) ∈ space.inuse →
      (space.Claim addr).2 = space) ∧
    (space.contains addr = true →
      (space.Claim addr).2.Claim addr = ((true, none), (space.Claim addr).2)) ∧
    (space.contains addr = false → space.Claim addr = ((false, none), space)) := by
  refine ⟨fun h => by simp [Space.Claim, h], fun h hmem => ?_, fun h => ?_, fun h => ?_⟩
  · simp [Space.Claim, h, Finset.insert_eq_self.mpr hmem]
  · have hc : ({ space with inuse := insert (addr - space.Start) space.inuse} :
        Space).contains addr = true := by
      simpa [Space.contains] using h
    simp [Space.Claim, h, hc, Finset.insert_idem]
  · simp [Space.Claim, h]

/-- Witness for C10 on the space `[100, 105)` and address 102: in-range claim
marks offset 2, double-claim is idempotent, and 99 is rejected. -/
theorem Space_Claim_spec_witness :
    (Space.Claim ⟨100, 5, ∅⟩ 102 = ((true, none), ⟨100, 5, {2}⟩)) ∧
    ((Space.Claim ⟨100, 5, {2}⟩ 102).2 = ⟨100, 5, {2}⟩) ∧
    (Space.Claim ⟨100, 5, ∅⟩ 99 = ((false, none), ⟨100, 5, ∅⟩)) := by
  refine ⟨?_, ?_, ?_⟩
  · have := (Space_Claim_spec ⟨100, 5, ∅⟩ 102).1 (by decide)
    simpa using this
  · exact (Space_Claim_spec ⟨100, 5, {2}⟩ 102).2.1 (by decide) (by decide)
  · exact (Space_Claim_spec ⟨100, 5, ∅⟩ 99).2.2.2 (by decide)

/-! ## C5: repeated allocation is stable; `free` removes the owned entry -/

/-- C5: when the owned table already has an address `A` for the container and
the operation is not cancelled, `allocate.Try` completes by delivering
`(true, A)` and leaves the allocator state unchanged (nothing new is
allocated); and `Allocator.free` deletes the container's owned entry. -/
theorem allocate_Try_owned (g : allocate) (alloc : Allocator) (A : ℕ)
    (hc : g.hasBeenCancelled = false)
    (ho : lookupOwned alloc.owned g.ident = some A) :
    g.Try alloc = { done := true, sent := some (true, A), alloc := alloc } ∧
    ∀ (alloc2 : Allocator) (ident : String),
      (alloc2.free ident).1.owned = deleteOwned alloc2.owned ident := by
  constructor
  · simp [allocate.Try, hc, ho]
  · intro alloc2 ident
    unfold Allocator.free
    split <;> (dsimp only; split <;> rfl)

/-! ## C2: merging entries that differ only in `Free` -/

/-- When the two entry lists are pointwise `entry.Equal` (same token, peer,
tombstone and version; `Free` unconstrained), the merge walk keeps every
local entry and succeeds. -/
theorem mergeLoop_equal (p : PeerName) :
    ∀ ms ts (po : Option PeerName),
      List.Forall₂ (fun a b => entry.Equal a b = true) ms ts →
      mergeLoop p ms ts po = .ok ms := by
  intro ms ts po h
  induction h generalizing po with
  | nil => simp [mergeLoop]
  | @cons a b as bs hab htail ih =>
    obtain ⟨hTok, hPeer, hTomb, hVer⟩ := (entry_Equal_iff a b).1 hab
    simp [mergeLoop, hTok, hVer, hab, ih, Except.map]

/-- Merging a ring whose entries are pointwise `entry.Equal` to ours (and
whose invariants hold, over the same subnet) succeeds and keeps the local
ring unchanged. -/
theorem merge_keeps_local_of_equal (r g : Ring)
    (hg : g.checkInvariants = none)
    (hs : r.Start = g.Start) (he : r.End = g.End)
    (hent : List.Forall₂ (fun a b => entry.Equal a b = true) r.Entries g.Entries) :
    r.merge g = (r, none) := by
  have hmain := mergeLoop_equal r.Peername r.Entries g.Entries none hent
  have hcond : ¬(r.Start ≠ g.Start ∨ r.End ≠ g.End) := by simp [hs, he]
  unfold Ring.merge
  rw [hg, if_neg hcond, hmain]

/-- C2 (amended): for a local ring `R` and a gossiped ring `G` over the same
subnet whose entries agree pointwise on token, peer, tombstone and version
(in particular when they are identical except that one entry with the same
token and version carries a different free count), merging `G` into `R` does
not fail with `InvalidEntry`: it succeeds and leaves `R` unchanged, because
`entry.Equal` does not compare the free count. -/
theorem merge_free_only_diff_keeps_local (r g : Ring)
    (hg : g.checkInvariants = none)
    (hs : r.Start = g.Start) (he : r.End = g.End)
    (hent : List.Forall₂ (fun a b => entry.Equal a b = true) r.Entries g.Entries) :
    r.merge g = (r, none) ∧ (r.merge g).2 ≠ some RingError.invalidEntry :=
  ⟨merge_keeps_local_of_equal r g hg hs he hent, by
    rw [merge_keeps_local_of_equal r g hg hs he hent]; simp⟩

/-- Witness for C2's amended statement: two concrete valid rings identical
except for the free count merge successfully with the local ring unchanged. -/
theorem merge_free_only_diff_keeps_local_witness :
    ringFree5.merge ringFree6 = (ringFree5, none) ∧
    (ringFree5.merge ringFree6).2 ≠ some RingError.invalidEntry :=
  merge_free_only_diff_keeps_local ringFree5 ringFree6 (by decide) rfl rfl
    (.cons (by decide) .nil)

/-- C2 counterexample: the claim as stated is false.  `ringFree5` and
`ringFree6` are valid rings over the same subnet, identical except that the
single entry (same token 12, same version 3) carries free count 5 versus 6,
yet merging does not return `InvalidEntry`; it succeeds. -/
theorem merge_free_mismatch_not_invalidEntry :
    ringFree5.checkInvariants = none ∧ ringFree6.checkInvariants = none ∧
    (ringFree5.merge ringFree6).2 = none ∧
    ¬(ringFree5.merge ringFree6).2 = some RingError.invalidEntry := by
  have h := merge_keeps_local_of_equal ringFree5 ringFree6 (by decide) rfl rfl
    (.cons (by decide) .nil)
  exact ⟨by decide, by decide, by rw [h], by rw [h]; simp⟩

/-! ## C1: merge commutativity -/

/-- Inversion for `Except.map` with a cons. -/
theorem mapCons_ok {e : Except RingError (List entry)} {x : entry} {r : List entry}
    (h : Except.map (fun l => x :: l) e = .ok r) :
    ∃ rr, e = .ok rr ∧ r = x :: rr := by
  cases e with
  | error a => simp [Except.map] at h
  | ok a =>
    refine ⟨a, rfl, ?_⟩
    simp [Except.map] at h
    exact h.symm

/-- When the gossiped side is exhausted the walk copies the local entries. -/
theorem mergeLoop_nil_right (p : PeerName) (ms : List entry) (po : Option PeerName) :
    mergeLoop p ms [] po = .ok ms := by
  cases ms <;> simp [mergeLoop]

/-- When the local side is exhausted a successful walk returns exactly the
gossiped entries. -/
theorem mergeLoop_nil_left (p : PeerName) :
    ∀ (ts : List entry) (po : Option PeerName) (r : List entry),
      mergeLoop p [] ts po = .ok r → r = ts := by
  intro ts
  induction ts with
  | nil => intro po r h; simpa [mergeLoop] using h.symm
  | cons t ts ih =>
    intro po r h
    rw [mergeLoop] at h
    split at h
    · simp at h
    · obtain ⟨rr, hrec, rfl⟩ := mapCons_ok h
      rw [ih none rr hrec]

/-- Core of C1: two successful merge walks over the same pair of entry lists,
performed from either side (with any peer names and any incoming previous
owners), produce pointwise `entry.Equal` results. -/
theorem mergeLoop_comm (pA pB : PeerName) :
    ∀ (as bs : List entry) (oA : Option PeerName),
      ∀ (oB : Option PeerName) (r1 r2 : List entry),
        mergeLoop pA as bs oA = .ok r1 → mergeLoop pB bs as oB = .ok r2 →
        List.Forall₂ (fun a b => entry.Equal a b = true) r1 r2 := by
  intro as bs oA
  induction as, bs, oA using mergeLoop.induct pA with
  | case1 ms po =>
    intro oB r1 r2 h1 h2
    rw [mergeLoop_nil_right] at h1
    obtain rfl : ms = r1 := by simpa using h1
    rw [mergeLoop_nil_left pB ms oB r2 h2]
    exact List.forall₂_same.2 (fun x _ => entry_Equal_refl x)
  | case2 t ts po hblock =>
    intro oB r1 r2 h1 h2
    rw [mergeLoop, if_pos hblock] at h1
    simp at h1
  | case3 t ts po hblock ih =>
    intro oB r1 r2 h1 h2
    rw [mergeLoop, if_neg hblock] at h1
    obtain ⟨r1x, hrec1, rfl⟩ := mapCons_ok h1
    rw [mergeLoop_nil_right] at h2
    obtain rfl : t :: ts = r2 := by simpa using h2
    rw [mergeLoop_nil_left pA ts none r1x hrec1]
    exact List.forall₂_same.2 (fun x _ => entry_Equal_refl x)
  | case4 m ms t ts po hlt ih =>
    intro oB r1 r2 h1 h2
    rw [mergeLoop, if_pos hlt] at h1
    obtain ⟨r1x, hrec1, rfl⟩ := mapCons_ok h1
    rw [mergeLoop] at h2
    rw [if_neg (by omega), if_pos (by omega)] at h2
    split at h2
    · simp at h2
    · obtain ⟨r2x, hrec2, rfl⟩ := mapCons_ok h2
      exact .cons (entry_Equal_refl m) (ih none r1x r2x hrec1 hrec2)
  | case5 m ms t ts po hnlt hgt hblock =>
    intro oB r1 r2 h1 h2
    rw [mergeLoop, if_neg hnlt, if_pos hgt, if_pos hblock] at h1
    simp at h1
  | case6 m ms t ts po hnlt hgt hblock ih =>
    intro oB r1 r2 h1 h2
    rw [mergeLoop, if_neg hnlt, if_pos hgt, if_neg hblock] at h1
    obtain ⟨r1x, hrec1, rfl⟩ := mapCons_ok h1
    rw [mergeLoop, if_pos (by omega)] at h2
    obtain ⟨r2x, hrec2, rfl⟩ := mapCons_ok h2
    exact .cons (entry_Equal_refl t) (ih (some t.Peer) r1x r2x hrec1 hrec2)
  | case7 m ms t ts po hnlt hngt hge hbad =>
    intro oB r1 r2 h1 h2
    rw [mergeLoop, if_neg hnlt, if_neg hngt, if_pos hge, if_pos hbad] at h1
    simp at h1
  | case8 m ms t ts po hnlt hngt hge hok ih =>
    intro oB r1 r2 h1 h2
    have htok : m.Token = t.Token := by omega
    rw [mergeLoop, if_neg hnlt, if_neg hngt, if_pos hge, if_neg hok] at h1
    obtain ⟨r1x, hrec1, rfl⟩ := mapCons_ok h1
    rw [mergeLoop, if_neg (by omega), if_neg (by omega)] at h2
    rcases Nat.lt_or_ge t.Version m.Version with hvlt | hvge
    · rw [if_neg (by omega)] at h2
      split at h2
      · simp at h2
      · obtain ⟨r2x, hrec2, rfl⟩ := mapCons_ok h2
        exact .cons (entry_Equal_refl m) (ih none r1x r2x hrec1 hrec2)
    · have hveq : m.Version = t.Version := by omega
      have hEq : m.Equal t = true := by
        rcases Bool.eq_false_or_eq_true (m.Equal t) with ht | hf
        · exact ht
        · exact absurd ⟨hveq, hf⟩ hok
      rw [if_pos hvge, if_neg (by simp [entry_Equal_symm hEq])] at h2
      obtain ⟨r2x, hrec2, rfl⟩ := mapCons_ok h2
      exact .cons hEq (ih (some t.Peer) r1x r2x hrec1 hrec2)
  | case9 m ms t ts po hnlt hngt hnge hmine =>
    intro oB r1 r2 h1 h2
    rw [mergeLoop, if_neg hnlt, if_neg hngt, if_neg hnge, if_pos hmine] at h1
    simp at h1
  | case10 m ms t ts po hnlt hngt hnge hmine ih =>
    intro oB r1 r2 h1 h2
    rw [mergeLoop, if_neg hnlt, if_neg hngt, if_neg hnge, if_neg hmine] at h1
    obtain ⟨r1x, hrec1, rfl⟩ := mapCons_ok h1
    rw [mergeLoop, if_neg (by omega), if_neg (by omega), if_pos (by omega),
      if_neg (by omega)] at h2
    obtain ⟨r2x, hrec2, rfl⟩ := mapCons_ok h2
    exact .cons (entry_Equal_refl t) (ih (some t.Peer) r1x r2x hrec1 hrec2)

/-- C1 (amended): for rings `A` and `B` over the same subnet whose entries
satisfy the ring invariants, if merging `B` into `A` succeeds and merging `A`
into `B` succeeds, the two resulting entry sequences agree pointwise on
token, peer, tombstone and version (`entry.Equal`); the free counts may
differ, because `entry.Equal` does not compare them. -/
theorem merge_commutative_up_to_Equal (rA rB r1 r2 : Ring)
    (hA : rA.checkInvariants = none) (hB : rB.checkInvariants = none)
    (h1 : rA.merge rB = (r1, none)) (h2 : rB.merge rA = (r2, none)) :
    List.Forall₂ (fun a b => entry.Equal a b = true) r1.Entries r2.Entries := by
  unfold Ring.merge at h1 h2
  rw [hB] at h1
  rw [hA] at h2
  by_cases hc1 : rA.Start ≠ rB.Start ∨ rA.End ≠ rB.End
  · rw [if_pos hc1] at h1
    exact absurd (congrArg Prod.snd h1) (by simp)
  · have hc2 : ¬(rB.Start ≠ rA.Start ∨ rB.End ≠ rA.End) := by
      push_neg at hc1 ⊢
      exact ⟨hc1.1.symm, hc1.2.symm⟩
    rw [if_neg hc1] at h1
    rw [if_neg hc2] at h2
    cases hm1 : mergeLoop rA.Peername rA.Entries rB.Entries none with
    | error e =>
      rw [hm1] at h1
      exact absurd (congrArg Prod.snd h1) (by simp)
    | ok res1 =>
      rw [hm1] at h1
      cases hm2 : mergeLoop rB.Peername rB.Entries rA.Entries none with
      | error e =>
        rw [hm2] at h2
        exact absurd (congrArg Prod.snd h2) (by simp)
      | ok res2 =>
        rw [hm2] at h2
        dsimp only at h1 h2
        have e1 : r1.Entries = res1 := by
          obtain ⟨ha, -⟩ := Prod.mk.inj h1
          rw [← ha]
        have e2 : r2.Entries = res2 := by
          obtain ⟨ha, -⟩ := Prod.mk.inj h2
          rw [← ha]
        rw [e1, e2]
        exact mergeLoop_comm rA.Peername rB.Peername rA.Entries rB.Entries none
          none res1 res2 hm1 hm2

/-- Witness for C1's amended statement at the concrete rings `ringFree5`,
`ringFree6`: both merges succeed and the results are pointwise
`entry.Equal`. -/
theorem merge_commutative_up_to_Equal_witness :
    List.Forall₂ (fun a b => entry.Equal a b = true)
      (ringFree5.merge ringFree6).1.Entries
      (ringFree6.merge ringFree5).1.Entries := by
  have hAB := merge_keeps_local_of_equal ringFree5 ringFree6 (by decide) rfl rfl
    (.cons (by decide) .nil)
  have hBA := merge_keeps_local_of_equal ringFree6 ringFree5 (by decide) rfl rfl
    (.cons (by decide) .nil)
  exact merge_commutative_up_to_Equal ringFree5 ringFree6 _ _ (by decide) (by decide)
    (by rw [hAB]) (by rw [hBA])

/-- C1 counterexample: the claim as stated (identical sequences including the
free count) is false.  Merging `ringFree6` into `ringFree5` and vice versa
both succeed, but each side keeps its own free count (5 versus 6), so the
resulting entry sequences are not identical. -/
theorem merge_results_differ_in_free :
    ringFree5.checkInvariants = none ∧ ringFree6.checkInvariants = none ∧
    (ringFree5.merge ringFree6).2 = none ∧
    (ringFree6.merge ringFree5).2 = none ∧
    (ringFree5.merge ringFree6).1.Entries ≠ (ringFree6.merge ringFree5).1.Entries := by
  have hAB := merge_keeps_local_of_equal ringFree5 ringFree6 (by decide) rfl rfl
    (.cons (by decide) .nil)
  have hBA := merge_keeps_local_of_equal ringFree6 ringFree5 (by decide) rfl rfl
    (.cons (by decide) .nil)
  refine ⟨by decide, by decide, by rw [hAB], by rw [hBA], ?_⟩
  rw [hAB, hBA]
  decide

/-! ## C8: `Space.Allocate` returns the lowest free offset -/

theorem scanFree_some (inuse : Finset ℕ) (size : ℕ) :
    ∀ off o, scanFree inuse size off = some o →
      off ≤ o ∧ o < size ∧ o ∉ inuse ∧ ∀ j, off ≤ j → j < o → j ∈ inuse := by
  intro off
  induction off using scanFree.induct inuse size with
  | case1 off hlt hmem ih =>
    intro o h
    rw [scanFree, if_pos hlt, if_pos hmem] at h
    obtain ⟨h1, h2, h3, h4⟩ := ih o h
    refine ⟨by omega, h2, h3, fun j hj1 hj2 => ?_⟩
    rcases Nat.eq_or_lt_of_le hj1 with rfl | hlt2
    · exact hmem
    · exact h4 j hlt2 hj2
  | case2 off hlt hmem =>
    intro o h
    rw [scanFree, if_pos hlt, if_neg hmem] at h
    obtain rfl := Option.some_injective _ h
    exact ⟨le_refl _, hlt, hmem, fun j hj1 hj2 => absurd hj2 (by omega)⟩
  | case3 off hlt =>
    intro o h
    rw [scanFree, if_neg hlt] at h
    simp at h

theorem scanFree_none (inuse : Finset ℕ) (size : ℕ) :
    ∀ off, scanFree inuse size off = none ↔ ∀ o, off ≤ o → o < size → o ∈ inuse := by
  intro off
  induction off using scanFree.induct inuse size with
  | case1 off hlt hmem ih =>
    rw [scanFree, if_pos hlt, if_pos hmem, ih]
    constructor
    · intro h o ho1 ho2
      rcases Nat.eq_or_lt_of_le ho1 with rfl | hlt2
      · exact hmem
      · exact h o hlt2 ho2
    · intro h o ho1 ho2
      exact h o (by omega) ho2
  | case2 off hlt hmem =>
    rw [scanFree, if_pos hlt, if_neg hmem]
    constructor
    · intro h; simp at h
    · intro h; exact absurd (h off (le_refl _) hlt) hmem
  | case3 off hlt =>
    rw [scanFree, if_neg hlt]
    constructor
    · intro _ o ho1 ho2; omega
    · intro _; rfl

theorem scanFree_min (inuse : Finset ℕ) (size : ℕ) :
    ∀ off o, off ≤ o → o < size → o ∉ inuse → (∀ j, off ≤ j → j < o → j ∈ inuse) →
      scanFree inuse size off = some o := by
  intro off
  induction off using scanFree.induct inuse size with
  | case1 off hlt hmem ih =>
    intro o ho1 ho2 ho3 ho4
    rw [scanFree, if_pos hlt, if_pos hmem]
    have hne : off ≠ o := fun he => ho3 (he ▸ hmem)
    exact ih o (by omega) ho2 ho3 (fun j hj1 hj2 => ho4 j (by omega) hj2)
  | case2 off hlt hmem =>
    intro o ho1 ho2 ho3 ho4
    rw [scanFree, if_pos hlt, if_neg hmem]
    rcases Nat.eq_or_lt_of_le ho1 with rfl | hlt2
    · rfl
    · exact absurd (ho4 off (le_refl _) hlt2) hmem
  | case3 off hlt =>
    intro o ho1 ho2 ho3 ho4
    omega

/-- C8: `Space.Allocate` fails exactly when every offset below `Size` is in
use (and then changes nothing); otherwise it returns `Start + o` (`uint32`
address arithmetic) for the smallest unset offset `o` and marks `o` in use. -/
theorem Space_Allocate_spec (space : Space) :
    ((space.Allocate).1.1 = false ↔ ∀ o, o < space.Size → o ∈ space.inuse) ∧
    ((space.Allocate).1.1 = false → space.Allocate = ((false, 0), space)) ∧
    (∀ o, o < space.Size → o ∉ space.inuse → (∀ j, j < o → j ∈ space.inuse) →
      space.Allocate = ((true, utilsAdd space.Start o),
                        { space with inuse := insert o space.inuse })) := by
  refine ⟨?_, ?_, ?_⟩
  · unfold Space.Allocate
    cases hs : scanFree space.inuse space.Size 0 with
    | none =>
      simp only [iff_true_intro rfl, true_iff]
      intro o ho
      exact ((scanFree_none space.inuse space.Size 0).1 hs) o (Nat.zero_le o) ho
    | some o =>
      obtain ⟨_, h2, h3, _⟩ := scanFree_some space.inuse space.Size 0 o hs
      simp only [Bool.true_eq_false, false_iff, not_forall]
      exact ⟨o, h2, fun hin => h3 hin⟩
  · unfold Space.Allocate
    cases hs : scanFree space.inuse space.Size 0 with
    | none => intro _; rfl
    | some o => intro hf; simp at hf
  · intro o h1 h2 h3
    unfold Space.Allocate
    rw [scanFree_min space.inuse space.Size 0 o (Nat.zero_le o) h1 h2
      (fun j _ hj => h3 j hj)]

/-- Witness for C8: on the space `[50, 54)` with offsets 0 and 1 in use,
`Allocate` returns address 52 and marks offset 2; the full space fails. -/
theorem Space_Allocate_spec_witness :
    Space.Allocate ⟨50, 4, {0, 1}⟩ = ((true, 52), ⟨50, 4, insert 2 {0, 1}⟩) ∧
    (Space.Allocate ⟨50, 4, {0, 1, 2, 3}⟩).1.1 = false := by
  constructor
  · have h := (Space_Allocate_spec ⟨50, 4, {0, 1}⟩).2.2 2 (by decide) (by decide)
      (by decide)
    rw [h]; decide
  · exact (Space_Allocate_spec ⟨50, 4, {0, 1, 2, 3}⟩).1.mpr (by decide)

/-! ## C7: clock-skew rejection -/

/-- C7: evaluation at the failing input.  The gossiped ring carries timestamp
0 and the local clock reads 7200 (a two-hour skew, beyond the one-hour limit
the claim states), yet `UpdateRing` does not return `ClockSkew`: the constant
`maxClockSkew` is `int64(time.Hour)` — nanoseconds — while the timestamps are
Unix seconds, so the guard compares 7200 against 3600000000000 and merges. -/
theorem UpdateRing_hour_skew_not_rejected :
    ((7200 : ℤ) - ringGossiped.Now > 3600) ∧
    (ringEmptyLocal.UpdateRing 7200 ringGossiped).2 = none ∧
    ¬(ringEmptyLocal.UpdateRing 7200 ringGossiped).2 = some RingError.clockSkew := by
  have hml : mergeLoop ringEmptyLocal.Peername ringEmptyLocal.Entries
      ringGossiped.Entries none = .ok ringGossiped.Entries := by
    simp [ringEmptyLocal, ringGossiped, mergeLoop, prevOwnerBlocks, Except.map]
  have h : ringEmptyLocal.UpdateRing 7200 ringGossiped
      = ({ ringEmptyLocal with Entries := ringGossiped.Entries }, none) := by
    unfold Ring.UpdateRing
    rw [if_neg (by decide)]
    unfold Ring.merge
    rw [show ringGossiped.checkInvariants = none from by decide]
    rw [if_neg (by decide), hml]
  refine ⟨by decide, by rw [h], by rw [h]; simp⟩

/-! ## C3: ReportFree -/

/-- C3: evaluation at the failing input.  The ring over `[10, 20)` owns
tokens 10 and 15, both with free count 5 and version 0; it satisfies the
ring invariants (both ranges have size 5), and the reported map carries 5
for token 10 and 3 for token 15, each value at most its range size — so the
claim's hypotheses all hold and none of the source's asserts fires (the
result is `some`, not the `none` that models a panic).  Because the stored
count for the first processed key already matches, the source executes
`return` instead of `continue` and abandons the rest of the map: the ring is
returned unchanged, entry 15 keeping free count 5 and version 0, although
the claim requires it to become free 3 with a version bump. -/
theorem ReportFree_early_return :
    ringTwoTokens.checkInvariants = none ∧
    ringTwoTokens.distance 10 15 = 5 ∧
    ringTwoTokens.distance 15 10 = 5 ∧
    lookupFS [(10, 5), (15, 3)] 15 = some 3 ∧
    ringTwoTokens.ReportFree [(10, 5), (15, 3)] = some ringTwoTokens ∧
    (entriesEntry ringTwoTokens.Entries 1).Free = 5 ∧
    (entriesEntry ringTwoTokens.Entries 1).Version = 0 := by
  refine ⟨by decide, by decide, by decide, by decide, by decide, by decide, by decide⟩

/-- Witness for C5: a concrete allocator owning 172 for container `c1`
redelivers 172 with unchanged state, and `free` empties the owned table. -/
theorem allocate_Try_owned_witness :
    allocate.Try ⟨"c1", false⟩ ⟨[("c1", 172)], ⟨[]⟩, [], []⟩ =
      { done := true, sent := some (true, 172),
        alloc := ⟨[("c1", 172)], ⟨[]⟩, [], []⟩ } ∧
    (Allocator.free ⟨[("c1", 172)], ⟨[]⟩, [], []⟩ "c1").1.owned = [] := by
  have h := allocate_Try_owned ⟨"c1", false⟩ ⟨[("c1", 172)], ⟨[]⟩, [], []⟩ 172
    (by decide) (by decide)
  exact ⟨h.1, by simpa using h.2 ⟨[("c1", 172)], ⟨[]⟩, [], []⟩ "c1"⟩

/-! ## C6: `ClaimForPeers` -/

theorem tokAt_le_rem (start S N : ℕ) :
    ∀ k, k ≤ S % N → tokAt start S N k = start + k * (S / N + 1) := by
  intro k
  induction k with
  | zero => intro _; simp [tokAt]
  | succ k ih =>
    intro h
    rw [tokAt, ih (by omega), shareOf, if_pos (by omega)]
    ring

theorem tokAt_ge_rem (start S N : ℕ) :
    ∀ k, S % N ≤ k →
      tokAt start S N k
        = start + (S % N) * (S / N + 1) + (k - S % N) * (S / N) := by
  intro k
  induction k with
  | zero =>
    intro h
    have h0 : S % N = 0 := by omega
    simp [tokAt, h0]
  | succ k ih =>
    intro h
    rcases Nat.lt_or_ge k (S % N) with hk | hk
    · have hbecame : k + 1 = S % N := by omega
      rw [tokAt_le_rem start S N (k + 1) (by omega), ← hbecame]
      simp
    · rw [tokAt, ih hk, shareOf, if_neg (by omega)]
      have hsub : k + 1 - S % N = (k - S % N) + 1 := by omega
      rw [hsub, Nat.succ_mul]
      omega

theorem numClaimed_le (S N : ℕ) (hN : 0 < N) : numClaimed S N ≤ N := by
  unfold numClaimed
  split
  · exact le_of_lt (Nat.mod_lt _ hN)
  · exact le_refl _

theorem tokAt_numClaimed (start S N : ℕ) (hN : 0 < N) :
    tokAt start S N (numClaimed S N) = start + S := by
  have hdm : N * (S / N) + S % N = S := Nat.div_add_mod S N
  have hrem : S % N < N := Nat.mod_lt _ hN
  by_cases hq : S / N = 0
  · have hdm0 := hdm
    rw [hq, Nat.mul_zero, Nat.zero_add] at hdm0
    rw [numClaimed, if_pos hq, tokAt_le_rem start S N (S % N) (le_refl _), hq]
    omega
  · rw [numClaimed, if_neg hq, tokAt_ge_rem start S N N (le_of_lt hrem)]
    have h1 : (N - S % N) * (S / N) + (S % N) * (S / N) = N * (S / N) := by
      rw [← Nat.add_mul, Nat.sub_add_cancel (le_of_lt hrem)]
    have h3 : (S % N) * (S / N + 1) = (S % N) * (S / N) + S % N := by ring
    omega

theorem tokAt_mono (start S N : ℕ) :
    ∀ i j, i ≤ j → tokAt start S N i ≤ tokAt start S N j := by
  intro i j hij
  induction j with
  | zero =>
    obtain rfl : i = 0 := by omega
    exact le_refl _
  | succ j ih =>
    rcases Nat.lt_or_ge i (j + 1) with hlt | hge
    · calc tokAt start S N i ≤ tokAt start S N j := ih (by omega)
        _ ≤ tokAt start S N (j + 1) := by rw [tokAt]; omega
    · obtain rfl : i = j + 1 := by omega
      exact le_refl _

theorem entriesGet_none_of_lt (es : List entry) (tok : ℕ)
    (h : ∀ e ∈ es, e.Token < tok) : entriesGet es tok = none := by
  induction es with
  | nil => rfl
  | cons x rest ih =>
    have hx : ¬ tok ≤ x.Token := by
      have := h x (by simp)
      omega
    have ih2 := ih (fun e he => h e (by simp [he]))
    unfold entriesGet at ih2 ⊢
    rw [List.findIdx_cons, decide_eq_false hx, cond_false, List.get?_cons_succ]
    exact ih2

theorem entriesInsert_append (es : List entry) (e : entry)
    (h : ∀ x ∈ es, x.Token < e.Token) : entriesInsert es e = es ++ [e] := by
  induction es with
  | nil => rfl
  | cons x rest ih =>
    have hx : ¬ e.Token ≤ x.Token := by
      have := h x (by simp)
      omega
    rw [entriesInsert, if_neg hx, ih (fun y hy => h y (by simp [hy]))]
    rfl

/-- Characterization of the `ClaimForPeers` loop: starting at index `i` with
the share variable and position the source maintains there, the loop appends
exactly the claimed entries for indices `i` up to `numClaimed`. -/
theorem claimLoop_spec (S N : ℕ) (peers : List PeerName) (hN : peers.length = N)
    (hNpos : 0 < N) (start : ℕ) (hword : start + S < wordSize) :
    ∀ (ps : List PeerName) (i : ℕ) (es : List entry),
      ps = peers.drop i → i ≤ numClaimed S N →
      (∀ e ∈ es, e.Token < tokAt start S N i) →
      claimLoop (S % N) ps i (if i ≤ S % N then S / N + 1 else S / N)
          (tokAt start S N i) es
        = es ++ ((List.range' i (numClaimed S N - i)).map fun k =>
            { Token := tokAt start S N k, Peer := peers.getD k 0, Tombstone := 0,
              Version := 0, Free := shareOf S N k }) := by
  intro ps
  induction ps with
  | nil =>
    intro i es hdrop hle htok
    have hlen : peers.length ≤ i := List.drop_eq_nil_iff.mp hdrop.symm
    have hKN := numClaimed_le S N hNpos
    have hKi : numClaimed S N = i := by omega
    simp [claimLoop, hKi]
  | cons p ps' ih =>
    intro i es hdrop hle htok
    have hi : i < peers.length := by
      by_contra hcon
      rw [List.drop_eq_nil_of_le (by omega)] at hdrop
      simp at hdrop
    have hgetp : peers.getD i 0 = p := by
      have h0 : peers[i]? = some p := by
        have hc := congrArg (fun l => l[0]?) hdrop
        simpa [List.getElem?_drop] using hc.symm
      simp [List.getD_eq_getElem?_getD, h0]
    have hdrop2 : ps' = peers.drop (i + 1) := by
      have hc := congrArg (fun l => l.drop 1) hdrop
      simpa [List.drop_drop, Nat.add_comm] using hc
    by_cases hbr : i = S % N ∧ S / N = 0
    · obtain ⟨hirem, hq0⟩ := hbr
      have hK : numClaimed S N = S % N := by rw [numClaimed, if_pos hq0]
      have hKi : numClaimed S N = i := by rw [hK]; exact hirem.symm
      simp only [claimLoop]
      rw [if_pos ⟨hirem, by rw [if_pos hirem, if_pos (le_of_eq hirem), hq0]⟩]
      simp [hKi]
    · have hshare1 : (if i = S % N then (if i ≤ S % N then S / N + 1 else S / N) - 1
          else (if i ≤ S % N then S / N + 1 else S / N)) = shareOf S N i := by
        unfold shareOf
        by_cases h1 : i = S % N
        · rw [if_pos h1, if_pos (le_of_eq h1), if_neg (by rw [h1]; exact lt_irrefl _)]
          simp
        · by_cases h2 : i < S % N
          · rw [if_neg h1, if_pos (le_of_lt h2), if_pos h2]
          · have hle2 : ¬(i ≤ S % N) :=
              fun hle3 => h1 (le_antisymm hle3 (le_of_not_lt h2))
            rw [if_neg h1, if_neg hle2, if_neg h2]
      have hiltK : i < numClaimed S N := by
        rcases Nat.eq_zero_or_pos (S / N) with hq0 | hqpos
        · have hK : numClaimed S N = S % N := by rw [numClaimed, if_pos hq0]
          have hne : ¬(i = S % N) := fun hc => hbr ⟨hc, hq0⟩
          rw [hK] at hle ⊢
          exact Nat.lt_of_le_of_ne hle hne
        · have hK : numClaimed S N = N := by
            rw [numClaimed, if_neg (Nat.pos_iff_ne_zero.mp hqpos)]
          rw [hK, ← hN]
          exact hi
      have hsharepos : 0 < shareOf S N i := by
        unfold shareOf
        by_cases h2 : i < S % N
        · rw [if_pos h2]
          exact Nat.succ_pos _
        · rw [if_neg h2]
          rcases Nat.eq_zero_or_pos (S / N) with hq0 | hqpos
          · have hK : numClaimed S N = S % N := by rw [numClaimed, if_pos hq0]
            rw [hK] at hiltK
            exact absurd (Nat.lt_of_lt_of_le hiltK (le_refl _)) h2
          · exact hqpos
      have htokstep : tokAt start S N (i + 1) = tokAt start S N i + shareOf S N i := rfl
      have hbound : tokAt start S N (i + 1) ≤ start + S := by
        calc tokAt start S N (i + 1)
            ≤ tokAt start S N (numClaimed S N) := tokAt_mono start S N _ _ (by omega)
          _ = start + S := tokAt_numClaimed start S N hNpos
      have hposNext : utilsAdd (tokAt start S N i) (shareOf S N i)
          = tokAt start S N (i + 1) := by
        unfold utilsAdd
        rw [← htokstep]
        exact Nat.mod_eq_of_lt (by omega)
      have hget := entriesGet_none_of_lt es (tokAt start S N i) htok
      have hins := entriesInsert_append es ⟨tokAt start S N i, p, 0, 0, shareOf S N i⟩ (fun x hx => htok x hx)
      have hnobreak : ¬(i = S % N ∧ shareOf S N i = 0) := by
        rintro ⟨h1, h2⟩
        apply hbr
        refine ⟨h1, ?_⟩
        unfold shareOf at h2
        rw [if_neg (by rw [h1]; exact lt_irrefl _)] at h2
        exact h2
      have hshare2 : shareOf S N i = (if i + 1 ≤ S % N then S / N + 1 else S / N) := by
        unfold shareOf
        by_cases h2 : i < S % N
        · rw [if_pos h2, if_pos (Nat.succ_le_of_lt h2)]
        · rw [if_neg h2, if_neg (fun hc => h2 (Nat.lt_of_succ_le hc))]
      have htok2 : ∀ e ∈ es ++ [(⟨tokAt start S N i, p, 0, 0, shareOf S N i⟩ : entry)], e.Token < tokAt start S N (i + 1) := by
        intro e he
        rcases List.mem_append.1 he with hold | hnew
        · have := htok e hold
          omega
        · obtain rfl : e = (⟨tokAt start S N i, p, 0, 0, shareOf S N i⟩ : entry) := by
            simpa using hnew
          show tokAt start S N i < tokAt start S N (i + 1)
          omega
      simp only [claimLoop]
      rw [hshare1, if_neg hnobreak, hget]
      rw [hins, hposNext]
      have ih2 := ih (i + 1)
        (es ++ [(⟨tokAt start S N i, p, 0, 0, shareOf S N i⟩ : entry)]) hdrop2
        (by omega) htok2
      rw [← hshare2] at ih2
      rw [ih2]
      have hrange : List.range' i (numClaimed S N - i)
          = i :: List.range' (i + 1) (numClaimed S N - (i + 1)) := by
        have hx : numClaimed S N - i = (numClaimed S N - (i + 1)) + 1 := by omega
        rw [hx]
        rfl
      rw [hrange]
      simp [hgetp]
      rw [List.getD_eq_getElem?_getD] at hgetp
      exact hgetp.symm

/-- C6: on an empty ring of usable size `S = End - Start` and a non-empty
peer list of length `N`, `ClaimForPeers` produces exactly the entries the
claim describes (`expectedClaim`): consecutive ranges from `Start` in list
order, the first `S mod N` peers with `S / N + 1` addresses and the rest with
`S / N`, peers with zero share receiving no token; and the assigned ranges
exactly cover `[Start, End)` (the token positions end at `End`).  Being a
function of the peer list, the outcome is deterministic. -/
theorem ClaimForPeers_spec (r : Ring) (peers : List PeerName)
    (hempty : r.Entries = []) (hne : peers ≠ [])
    (hse : r.Start ≤ r.End) (hword : r.End < wordSize) :
    (r.ClaimForPeers peers).Entries
      = expectedClaim r.Start (r.End - r.Start) peers.length peers ∧
    tokAt r.Start (r.End - r.Start) peers.length
      (numClaimed (r.End - r.Start) peers.length) = r.End := by
  have hNpos : 0 < peers.length := List.length_pos.2 hne
  have hdist : r.distance r.Start r.End = r.End - r.Start := by
    unfold Ring.distance
    split <;> omega
  constructor
  · unfold Ring.ClaimForPeers
    dsimp only
    rw [hdist, hempty]
    have h := claimLoop_spec (r.End - r.Start) peers.length peers rfl hNpos r.Start
      (by omega) peers 0 [] (by simp) (Nat.zero_le _) (by simp)
    rw [if_pos (Nat.zero_le _)] at h
    unfold expectedClaim
    rw [List.range_eq_range' _]
    simpa [tokAt] using h
  · have h := tokAt_numClaimed r.Start (r.End - r.Start) peers.length hNpos
    omega

/-! ## C4: `GiveUpSpace` -/

theorem runLen_zero_of_mem (inuse : Finset ℕ) (mx i : ℕ) (h : i ∈ inuse) :
    runLen inuse mx i = 0 := by
  rw [runLen, if_neg (fun hc => hc.2 h)]

theorem runLen_le (inuse : Finset ℕ) (mx : ℕ) :
    ∀ i, i < mx → i + runLen inuse mx i ≤ mx := by
  intro i
  induction i using runLen.induct inuse mx with
  | case1 i hc ih =>
    intro hi
    rw [runLen, if_pos hc]
    by_cases h2 : i + 1 < mx
    · have := ih h2
      omega
    · have h0 : runLen inuse mx (i + 1) = 0 := by
        rw [runLen, if_neg (fun hc2 => h2 hc2.1)]
      omega
  | case2 i hc =>
    intro hi
    rw [runLen, if_neg hc]
    omega

theorem bfcScan_mono (inuse : Finset ℕ) (mx : ℕ) :
    ∀ i cs csz, csz ≤ (bfcScan inuse mx i cs csz).2 := by
  intro i cs csz
  induction i, cs, csz using bfcScan.induct inuse mx with
  | case1 i cs csz hi psize hgt ih =>
    have hps : psize = runLen inuse mx i := rfl
    rw [hps] at hgt ih
    rw [bfcScan, if_pos hi]
    dsimp only
    rw [if_pos hgt]
    have := ih
    omega
  | case2 i cs csz hi psize hngt ih =>
    have hps : psize = runLen inuse mx i := rfl
    rw [hps] at hngt ih
    rw [bfcScan, if_pos hi]
    dsimp only
    rw [if_neg hngt]
    exact ih
  | case3 i cs csz hi =>
    rw [bfcScan, if_neg hi]

theorem bfcScan_sum_le (inuse : Finset ℕ) (mx B : ℕ) (hmx : mx ≤ B) :
    ∀ i cs csz, cs + csz ≤ B →
      (bfcScan inuse mx i cs csz).1 + (bfcScan inuse mx i cs csz).2 ≤ B := by
  intro i cs csz
  induction i, cs, csz using bfcScan.induct inuse mx with
  | case1 i cs csz hi psize hgt ih =>
    have hps : psize = runLen inuse mx i := rfl
    rw [hps] at hgt ih
    intro hsum
    rw [bfcScan, if_pos hi]
    dsimp only
    rw [if_pos hgt]
    refine ih ?_
    have := runLen_le inuse mx i hi
    omega
  | case2 i cs csz hi psize hngt ih =>
    have hps : psize = runLen inuse mx i := rfl
    rw [hps] at hngt ih
    intro hsum
    rw [bfcScan, if_pos hi]
    dsimp only
    rw [if_neg hngt]
    exact ih hsum
  | case3 i cs csz hi =>
    intro hsum
    rw [bfcScan, if_neg hi]
    exact hsum

theorem bfcScan_all_inuse (inuse : Finset ℕ) (mx : ℕ)
    (hall : ∀ k, k < mx → k ∈ inuse) :
    ∀ i cs csz, bfcScan inuse mx i cs csz = (cs, csz) := by
  intro i cs csz
  induction i, cs, csz using bfcScan.induct inuse mx with
  | case1 i cs csz hi psize hgt ih =>
    have hps : psize = runLen inuse mx i := rfl
    rw [hps] at hgt ih
    exfalso
    have h0 : runLen inuse mx i = 0 := runLen_zero_of_mem inuse mx i (hall i hi)
    omega
  | case2 i cs csz hi psize hngt ih =>
    have hps : psize = runLen inuse mx i := rfl
    rw [hps] at hngt ih
    rw [bfcScan, if_pos hi]
    dsimp only
    rw [if_neg hngt]
    exact ih
  | case3 i cs csz hi =>
    rw [bfcScan, if_neg hi]

theorem bfcScan_finds (inuse : Finset ℕ) (mx o : ℕ)
    (ho1 : o ∉ inuse) (ho2 : o < mx) :
    ∀ i cs csz, i ≤ o → 1 ≤ (bfcScan inuse mx i cs csz).2 := by
  intro i cs csz
  induction i, cs, csz using bfcScan.induct inuse mx with
  | case1 i cs csz hi psize hgt ih =>
    have hps : psize = runLen inuse mx i := rfl
    rw [hps] at hgt ih
    intro hio
    rw [bfcScan, if_pos hi]
    dsimp only
    rw [if_pos hgt]
    have := bfcScan_mono inuse mx (i + runLen inuse mx i + 1) i (runLen inuse mx i)
    omega
  | case2 i cs csz hi psize hngt ih =>
    have hps : psize = runLen inuse mx i := rfl
    rw [hps] at hngt ih
    intro hio
    rw [bfcScan, if_pos hi]
    dsimp only
    rw [if_neg hngt]
    rcases Nat.eq_zero_or_pos csz with hcz | hcz
    · have hrl0 : runLen inuse mx i = 0 := by omega
      have hmem : i ∈ inuse := by
        by_contra hnm
        rw [runLen, if_pos ⟨hi, hnm⟩] at hrl0
        omega
      have hne : i ≠ o := fun hc => ho1 (hc ▸ hmem)
      exact ih (by omega)
    · have := bfcScan_mono inuse mx (i + runLen inuse mx i + 1) cs csz
      omega
  | case3 i cs csz hi =>
    intro hio
    omega

theorem sparseMax_mem (inuse : Finset ℕ) (h : inuse ≠ ∅) :
    sparseMax inuse ∈ inuse := by
  obtain ⟨m, hm⟩ := Finset.max_of_nonempty (Finset.nonempty_iff_ne_empty.2 h)
  have hs : sparseMax inuse = m := by
    unfold sparseMax
    rw [hm]
    rfl
  rw [hs]
  exact Finset.mem_of_max hm

theorem sparseMax_ge (inuse : Finset ℕ) (x : ℕ) (hx : x ∈ inuse) :
    x ≤ sparseMax inuse := by
  obtain ⟨m, hm⟩ := Finset.max_of_nonempty ⟨x, hx⟩
  have hs : sparseMax inuse = m := by
    unfold sparseMax
    rw [hm]
    rfl
  rw [hs]
  have := Finset.le_max hx
  rw [hm] at this
  exact_mod_cast this

/-- A space has no free addresses exactly when its biggest free chunk has
length zero. -/
theorem BFC_zero_iff (sp : Space) (hinv : Space.inv sp) :
    sp.NumFreeAddresses = 0 ↔ (sp.BiggestFreeChunk).2 = 0 := by
  have hsub : sp.inuse ⊆ Finset.range sp.Size := by
    intro x hx
    exact Finset.mem_range.2 (hinv x hx)
  have hcard : sp.inuse.card ≤ sp.Size := by
    have := Finset.card_le_card hsub
    simpa using this
  constructor
  · intro h0
    have hfull : sp.inuse = Finset.range sp.Size := by
      apply Finset.eq_of_subset_of_card_le hsub
      unfold Space.NumFreeAddresses at h0
      simp
      omega
    by_cases hsz : sp.Size = 0
    · unfold Space.BiggestFreeChunk
      rw [if_pos (by rw [hfull, hsz]; rfl)]
      exact hsz
    · have hne : sp.inuse ≠ ∅ := by
        rw [hfull]
        intro hc
        apply hsz
        have hcc := congrArg Finset.card hc
        simpa using hcc
      unfold Space.BiggestFreeChunk
      rw [if_neg hne]
      dsimp only
      have hmxmem := sparseMax_mem sp.inuse hne
      have hmxlt : sparseMax sp.inuse < sp.Size := hinv _ hmxmem
      have hmxge : sp.Size - 1 ≤ sparseMax sp.inuse := by
        apply sparseMax_ge
        rw [hfull]
        exact Finset.mem_range.2 (by omega)
      have hcs0 : sp.Size - (sparseMax sp.inuse + 1) = 0 := by omega
      rw [hcs0, bfcScan_all_inuse sp.inuse (sparseMax sp.inuse)
        (fun k hk => by rw [hfull]; exact Finset.mem_range.2 (by omega)) 0 _ 0]
      rfl
  · intro h0
    by_contra hfree
    have hcardlt : sp.inuse.card < sp.Size := by
      unfold Space.NumFreeAddresses at hfree
      omega
    obtain ⟨o, ho1, ho2⟩ : ∃ o, o < sp.Size ∧ o ∉ sp.inuse := by
      by_contra hc
      push_neg at hc
      have : Finset.range sp.Size ⊆ sp.inuse := by
        intro x hx
        exact hc x (Finset.mem_range.1 hx)
      have := Finset.card_le_card this
      simp at this
      omega
    by_cases hne : sp.inuse = ∅
    · unfold Space.BiggestFreeChunk at h0
      rw [if_pos hne] at h0
      omega
    · unfold Space.BiggestFreeChunk at h0
      rw [if_neg hne] at h0
      dsimp only at h0
      have hmxmem := sparseMax_mem sp.inuse hne
      have hmxlt : sparseMax sp.inuse < sp.Size := hinv _ hmxmem
      have hone : o ≠ sparseMax sp.inuse := fun hc => ho2 (hc ▸ hmxmem)
      rcases Nat.lt_or_ge o (sparseMax sp.inuse) with holt | hoge
      · have hfind := bfcScan_finds sp.inuse (sparseMax sp.inuse) o ho2 holt 0
          (sparseMax sp.inuse + 1) (sp.Size - (sparseMax sp.inuse + 1)) (Nat.zero_le o)
        split at h0
        · omega
        · simp at h0
          omega
      · have hinit : 1 ≤ sp.Size - (sparseMax sp.inuse + 1) := by omega
        have hmono := bfcScan_mono sp.inuse (sparseMax sp.inuse) 0
          (sparseMax sp.inuse + 1) (sp.Size - (sparseMax sp.inuse + 1))
        split at h0
        · omega
        · simp at h0
          omega

/-- A non-trivial biggest free chunk lies inside the space: its address is
`Start + cs` for an in-range chunk offset `cs` with `cs + length ≤ Size`. -/
theorem BFC_within (sp : Space) (hinv : Space.inv sp)
    (hword : sp.Start + sp.Size ≤ wordSize)
    (hpos : 0 < (sp.BiggestFreeChunk).2) :
    ∃ cs0, (sp.BiggestFreeChunk).1 = sp.Start + cs0 ∧
      cs0 + (sp.BiggestFreeChunk).2 ≤ sp.Size := by
  by_cases hne : sp.inuse = ∅
  · refine ⟨0, ?_, ?_⟩ <;> unfold Space.BiggestFreeChunk <;> rw [if_pos hne] <;> simp
  · have hmxmem := sparseMax_mem sp.inuse hne
    have hmxlt : sparseMax sp.inuse < sp.Size := hinv _ hmxmem
    have hsum := bfcScan_sum_le sp.inuse (sparseMax sp.inuse) sp.Size
      (le_of_lt hmxlt) 0 (sparseMax sp.inuse + 1)
      (sp.Size - (sparseMax sp.inuse + 1)) (by omega)
    unfold Space.BiggestFreeChunk at hpos ⊢
    rw [if_neg hne] at hpos ⊢
    dsimp only at hpos ⊢
    split at hpos
    · omega
    · next hres0 =>
      simp only [if_neg hres0]
      refine ⟨(bfcScan sp.inuse (sparseMax sp.inuse) 0 (sparseMax sp.inuse + 1)
        (sp.Size - (sparseMax sp.inuse + 1))).1, ?_, by omega⟩
      unfold utilsAdd
      exact Nat.mod_eq_of_lt (by omega)

theorem findBest_ge_acc : ∀ (l : List Space) (j : ℕ) (b : ℕ × ℕ × ℕ),
    b.2.1 ≤ (findBest l j b).2.1 := by
  intro l
  induction l with
  | nil => intro j b; exact le_refl _
  | cons sp rest ih =>
    intro j b
    rw [findBest]
    split
    · exact ih (j + 1) b
    · next hc =>
      exact le_trans (le_of_not_lt hc)
        (ih (j + 1) (sp.BiggestFreeChunk.1, sp.BiggestFreeChunk.2, j))

theorem findBest_ge_mem : ∀ (l : List Space) (j : ℕ) (b : ℕ × ℕ × ℕ)
    (sp : Space), sp ∈ l →
    (sp.BiggestFreeChunk).2 ≤ (findBest l j b).2.1 := by
  intro l
  induction l with
  | nil => intro j b sp h; simp at h
  | cons x rest ih =>
    intro j b sp hmem
    rw [findBest]
    rcases List.mem_cons.1 hmem with rfl | hrest
    · split
      · next hc =>
        exact le_trans (le_of_lt hc) (findBest_ge_acc rest (j + 1) b)
      · exact findBest_ge_acc rest (j + 1)
          (sp.BiggestFreeChunk.1, sp.BiggestFreeChunk.2, j)
    · split
      · exact ih (j + 1) b sp hrest
      · exact ih (j + 1) (x.BiggestFreeChunk.1, x.BiggestFreeChunk.2, j) sp hrest

theorem findBest_result : ∀ (l : List Space) (j : ℕ) (b : ℕ × ℕ × ℕ),
    findBest l j b = b ∨
    ∃ k, ∃ hk : k < l.length,
      (findBest l j b).1 = ((l.get ⟨k, hk⟩).BiggestFreeChunk).1 ∧
      (findBest l j b).2.1 = ((l.get ⟨k, hk⟩).BiggestFreeChunk).2 ∧
      (findBest l j b).2.2 = j + k := by
  intro l
  induction l with
  | nil => intro j b; exact Or.inl rfl
  | cons x rest ih =>
    intro j b
    rw [findBest]
    split
    · rcases ih (j + 1) b with heq | ⟨k, hk, h1, h2, h3⟩
      · exact Or.inl heq
      · refine Or.inr ⟨k + 1, by simpa using hk, ?_, ?_, ?_⟩
        · simpa using h1
        · simpa using h2
        · rw [h3]; omega
    · rcases ih (j + 1) (x.BiggestFreeChunk.1, x.BiggestFreeChunk.2, j)
        with heq | ⟨k, hk, h1, h2, h3⟩
      · refine Or.inr ⟨0, by simp, ?_, ?_, ?_⟩
        · rw [heq]; simp
        · rw [heq]; simp
        · rw [heq]; simp
      · refine Or.inr ⟨k + 1, by simpa using hk, ?_, ?_, ?_⟩
        · simpa using h1
        · simpa using h2
        · rw [h3]; omega

/-- C4: `GiveUpSpace` on a space set with `F` free addresses in total returns
`ok = false` exactly when `F = 0`; and a successful donation `(start, size)`
has `1 ≤ size ≤ max 1 (F / 2) ≤ ⌈F / 2⌉` and is right-aligned inside the
biggest free chunk the scan found across all spaces (its end coincides with
that chunk's end, and no space has a bigger chunk). -/
theorem GiveUpSpace_spec (s : Set)
    (hinv : ∀ sp ∈ s.spaces, Space.inv sp)
    (hword : ∀ sp ∈ s.spaces, sp.Start + sp.Size ≤ wordSize) :
    ((s.GiveUpSpace).1.2.2 = false ↔ s.NumFreeAddresses = 0) ∧
    ((s.GiveUpSpace).1.2.2 = true →
      1 ≤ (s.GiveUpSpace).1.2.1 ∧
      (s.GiveUpSpace).1.2.1 ≤ max 1 (s.NumFreeAddresses / 2) ∧
      max 1 (s.NumFreeAddresses / 2) ≤ (s.NumFreeAddresses + 1) / 2 ∧
      ∃ k, ∃ hk : k < s.spaces.length,
        (∀ sp ∈ s.spaces, (sp.BiggestFreeChunk).2
          ≤ ((s.spaces.get ⟨k, hk⟩).BiggestFreeChunk).2) ∧
        (s.GiveUpSpace).1.1 + (s.GiveUpSpace).1.2.1
          = ((s.spaces.get ⟨k, hk⟩).BiggestFreeChunk).1
            + ((s.spaces.get ⟨k, hk⟩).BiggestFreeChunk).2) := by
  have hfree_iff : s.NumFreeAddresses = 0
      ↔ ∀ sp ∈ s.spaces, sp.NumFreeAddresses = 0 := by
    unfold Set.NumFreeAddresses
    rw [List.sum_eq_zero_iff]
    constructor
    · intro h sp hsp
      exact h _ (List.mem_map_of_mem _ hsp)
    · intro h x hx
      obtain ⟨sp, hsp, rfl⟩ := List.mem_map.1 hx
      exact h sp hsp
  have hbfc_iff : (∀ sp ∈ s.spaces, (sp.BiggestFreeChunk).2 = 0)
      ↔ (findBest s.spaces 0 (0, 0, 0)).2.1 = 0 := by
    constructor
    · intro hall
      rcases findBest_result s.spaces 0 (0, 0, 0) with heq | ⟨k, hk, h1, h2, h3⟩
      · rw [heq]
      · rw [h2]
        exact hall _ (List.get_mem _ _ _)
    · intro h0 sp hsp
      have := findBest_ge_mem s.spaces 0 (0, 0, 0) sp hsp
      omega
  have hFiff : s.NumFreeAddresses = 0 ↔ (findBest s.spaces 0 (0, 0, 0)).2.1 = 0 := by
    rw [hfree_iff, ← hbfc_iff]
    constructor
    · intro h sp hsp
      exact (BFC_zero_iff sp (hinv sp hsp)).1 (h sp hsp)
    · intro h sp hsp
      exact (BFC_zero_iff sp (hinv sp hsp)).2 (h sp hsp)
  unfold Set.GiveUpSpace
  dsimp only
  by_cases hb0 : (findBest s.spaces 0 (0, 0, 0)).2.1 = 0
  · rw [if_pos hb0]
    constructor
    · simp [hFiff.mpr hb0]
    · intro htrue
      simp at htrue
  · rw [if_neg hb0]
    dsimp only
    have hF0 : s.NumFreeAddresses ≠ 0 := fun hc => hb0 (hFiff.1 hc)
    have hF1 : 1 ≤ s.NumFreeAddresses := by omega
    have hmaxd : (if s.NumFreeAddresses / 2 < 1 then 1 else s.NumFreeAddresses / 2)
        = max 1 (s.NumFreeAddresses / 2) := by
      split <;> omega
    rw [hmaxd]
    have hM1 : 1 ≤ max 1 (s.NumFreeAddresses / 2) := le_max_left _ _
    obtain ⟨k, hk, h1, h2, h3⟩ :
        ∃ k, ∃ hk : k < s.spaces.length,
          (findBest s.spaces 0 (0, 0, 0)).1
              = ((s.spaces.get ⟨k, hk⟩).BiggestFreeChunk).1 ∧
          (findBest s.spaces 0 (0, 0, 0)).2.1
              = ((s.spaces.get ⟨k, hk⟩).BiggestFreeChunk).2 ∧
          (findBest s.spaces 0 (0, 0, 0)).2.2 = 0 + k := by
      rcases findBest_result s.spaces 0 (0, 0, 0) with heq | hex
      · rw [heq] at hb0
        simp at hb0
      · exact hex
    have hspk : s.spaces.get ⟨k, hk⟩ ∈ s.spaces := List.get_mem _ _ _
    have hmax_mem : ∀ sp ∈ s.spaces, (sp.BiggestFreeChunk).2
        ≤ ((s.spaces.get ⟨k, hk⟩).BiggestFreeChunk).2 := by
      intro sp hsp
      have := findBest_ge_mem s.spaces 0 (0, 0, 0) sp hsp
      omega
    have hbfcK_pos : 0 < ((s.spaces.get ⟨k, hk⟩).BiggestFreeChunk).2 := by omega
    obtain ⟨cs0, hcs1, hcs2⟩ := BFC_within _ (hinv _ hspk) (hword _ hspk) hbfcK_pos
    have hwk := hword _ hspk
    by_cases hcap : (findBest s.spaces 0 (0, 0, 0)).2.1
        > max 1 (s.NumFreeAddresses / 2)
    · rw [if_pos hcap, if_pos hcap]
      constructor
      · constructor
        · intro hc
          simp at hc
        · intro hc
          exact absurd hc hF0
      · intro _
        refine ⟨hM1, le_refl _, by omega, k, hk, hmax_mem, ?_⟩
        rw [h2] at hcap
        rw [h1, h2]
        unfold utilsAdd
        rw [hcs1]
        rw [Nat.mod_eq_of_lt (by omega)]
        omega
    · rw [if_neg hcap, if_neg hcap]
      constructor
      · constructor
        · intro hc
          simp at hc
        · intro hc
          exact absurd hc hF0
      · intro _
        refine ⟨by omega, le_of_not_lt hcap, by omega, k, hk, hmax_mem, ?_⟩
        rw [h1, h2]

/-- Witness for C4: a set with one space `[100, 108)` whose offsets 0, 1 and
2 are in use (5 free addresses) donates successfully, at least one address
and at most `max 1 (5 / 2) = 2`. -/
theorem GiveUpSpace_spec_witness :
    (Set.GiveUpSpace ⟨[⟨100, 8, {0, 1, 2}⟩]⟩).1.2.2 = true ∧
    1 ≤ (Set.GiveUpSpace ⟨[⟨100, 8, {0, 1, 2}⟩]⟩).1.2.1 ∧
    (Set.GiveUpSpace ⟨[⟨100, 8, {0, 1, 2}⟩]⟩).1.2.1
      ≤ max 1 (Set.NumFreeAddresses ⟨[⟨100, 8, {0, 1, 2}⟩]⟩ / 2) := by
  have hinvW : ∀ sp ∈ [(⟨100, 8, {0, 1, 2}⟩ : Space)], Space.inv sp := by
    intro sp hsp
    simp at hsp
    subst hsp
    intro o ho
    simp at ho
    rcases ho with rfl | rfl | rfl <;> decide
  have hwordW : ∀ sp ∈ [(⟨100, 8, {0, 1, 2}⟩ : Space)],
      sp.Start + sp.Size ≤ wordSize := by
    intro sp hsp
    simp at hsp
    subst hsp
    decide
  have h := GiveUpSpace_spec ⟨[⟨100, 8, {0, 1, 2}⟩]⟩ hinvW hwordW
  have hok : (Set.GiveUpSpace ⟨[⟨100, 8, {0, 1, 2}⟩]⟩).1.2.2 = true := by
    rcases Bool.eq_false_or_eq_true
        ((Set.GiveUpSpace ⟨[⟨100, 8, {0, 1, 2}⟩]⟩).1.2.2) with ht | hf
    · exact ht
    · exact absurd (h.1.mp hf) (by decide)
  obtain ⟨hs1, hs2, -, -⟩ := h.2 hok
  exact ⟨hok, hs1, hs2⟩

/-- Witness for C6: dividing the empty ring over `[10, 20)` (10 usable
addresses) among peers `[4, 5, 6]` yields shares 4, 3, 3 at tokens 10, 14,
17. -/
theorem ClaimForPeers_spec_witness :
    (ringEmptyLocal.ClaimForPeers [4, 5, 6]).Entries
      = [⟨10, 4, 0, 0, 4⟩, ⟨14, 5, 0, 0, 3⟩, ⟨17, 6, 0, 0, 3⟩] := by
  rw [(ClaimForPeers_spec ringEmptyLocal [4, 5, 6] (by decide) (by decide)
    (by decide) (by decide)).1]
  decide

end Weave
